import Mathlib

/-!
Verification of lib-wallet-pay-btc against its natural-language specification.

The development shallowly embeds the parts of the source that the claims are
about:

* `src/src/bitcoin-core.js` — `RequestCache` (`set`, `get`, the `size`
  getter/setter, `_removeOldest`, the sweep body of `_startCacheTimer`),
  `getBlockReward`, the transaction-decoration pipeline of
  `BitcoinCore.getTransaction` (`_processTxVout`, the output fold, the input
  fold), and `BitcoinCore._handleTxEvent`.
* `src/unnamed/part_000` — `SyncManager` (`_processHistory`, `_processUtxo`,
  `_getTxState`, `_processPath`, `syncAccount`, `getBalance`).

JS numbers standing for satoshi/BTC amounts are modelled as `Int` (the sync
engine's signed balance buckets) and as `Rat` (the decimal money values used
by `getTransaction`/`getBlockReward`, whose external arbitrary-precision
decimal type is exact on every value the claims touch).  Stateful code is
state-passing: each method becomes a function from the relevant state to the
updated state.  Async iteration (`Promise.all` over history entries) is
interpreted sequentially, in list order, matching the serialization the spec
itself requires of the ledger fold (§5).
-/

/-! ## Response cache (`RequestCache`, src/src/bitcoin-core.js lines 41-107)

The JS backing store keeps both the cached entries (under their own keys,
each as a pair `[value, exp]`) and the eviction index (a list of keys stored
under the reserved key `cache_index`).  We model the two parts as two fields;
no claim stores a real entry under the reserved key.  The periodic sweep of
`_startCacheTimer` is embedded as `RequestCache.sweep`; note that nothing in
the source ever calls `_startCacheTimer` (and `_cache_interval` is never
assigned), so in the running program the sweep body is dead code. -/

/-- A value passed to `RequestCache.set`.  `expiry` models the JS
`value.expiry` field: `none` is an absent field, and JS treats both an absent
field and `0` as falsy in `if (!value.expiry)`. -/
structure CacheEntryVal where
  payload : Nat
  expiry : Option Int
deriving DecidableEq, Repr

structure CacheState where
  /-- the non-index keys of the store: key, stored value, absolute expiry -/
  entries : List (String × CacheEntryVal × Int)
  /-- the list stored under the reserved `cache_index` key -/
  cacheIndex : List String
  /-- `this._cache_size` -/
  cacheSize : Nat
deriving DecidableEq, Repr

/-- Configuration of the cache: `_cache_expiry` (default 300000 ms) and
`_max_cache_size` (default 10000).  Nothing in `RequestCache` ever reads
`_max_cache_size` back. -/
structure CacheConfig where
  cacheExpiry : Int
  maxCacheSize : Nat
deriving DecidableEq, Repr

def findEntry : List (String × CacheEntryVal × Int) → String → Option (CacheEntryVal × Int)
  | [], _ => none
  | (k, v) :: rest, a => if k = a then some v else findEntry rest a

def putEntry : List (String × CacheEntryVal × Int) → String → CacheEntryVal × Int →
    List (String × CacheEntryVal × Int)
  | [], a, v => [(a, v)]
  | (k, w) :: rest, a, v => if k = a then (a, v) :: rest else (k, w) :: putEntry rest a v

def delEntry (l : List (String × CacheEntryVal × Int)) (a : String) :
    List (String × CacheEntryVal × Int) :=
  l.filter (fun e => e.1 ≠ a)

/-- The eviction guard of `set`: JS compares `this._cache_size >=
this._max_session_size`.  No field named `_max_session_size` is ever
assigned anywhere in the source (the constructor assigns `_max_cache_size`),
so the right-hand side is `undefined` and the JS `>=` comparison evaluates to
`false` for every number on the left. -/
def jsGeUndefined (_cacheSize : Nat) : Bool := false

/-- `RequestCache._removeOldest`: pops the key at index position 0 and
deletes it.  On an empty index, `index.shift()` is `undefined` and
`store.delete(undefined)` removes nothing. -/
def RequestCache.removeOldest (st : CacheState) : CacheState :=
  match st.cacheIndex with
  | [] => st
  | k :: rest => { st with entries := delEntry st.entries k, cacheIndex := rest }

/-- `RequestCache.set` (lines 78-93).  `now` is `Date.now()` at the call.
The final `this.size = index.length` statement invokes the `size` setter,
whose body is `return null`: it discards the value, so `_cache_size` is left
unchanged. -/
def RequestCache.set (cfg : CacheConfig) (now : Int) (st : CacheState) (key : String)
    (value : CacheEntryVal) : CacheState :=
  let st1 := if jsGeUndefined st.cacheSize then RequestCache.removeOldest st else st
  let exp : Int :=
    match value.expiry with
    | none => now + cfg.cacheExpiry
    | some e => if e = 0 then now + cfg.cacheExpiry else e
  { entries := putEntry st1.entries key (value, exp),
    cacheIndex := st1.cacheIndex ++ [key],
    cacheSize := st1.cacheSize }

/-- `RequestCache.get` (lines 95-98): returns `data[0]` of the stored pair
whenever the key is present.  The stored expiry `data[1]` is not consulted;
`get` takes no clock at all. -/
def RequestCache.get (st : CacheState) (key : String) : Option CacheEntryVal :=
  (findEntry st.entries key).map (fun p => p.1)

/-- The `size` getter (lines 100-102). -/
def RequestCache.size (st : CacheState) : Nat := st.cacheSize

/-- The stored absolute expiry of a key (the `data[1]` component). -/
def RequestCache.entryExpiry (st : CacheState) (key : String) : Option Int :=
  (findEntry st.entries key).map (fun p => p.2)

/-- The body of the `_startCacheTimer` interval (lines 59-65): delete every
entry whose expiry has passed (`Date.now() >= exp`).  The index is not
cleaned.  (The timer itself is never started by any caller.) -/
def RequestCache.sweep (now : Int) (st : CacheState) : CacheState :=
  { st with entries := st.entries.filter (fun e => ¬ (e.2.2 ≤ now)) }

/-! ### C1: the size bound of `set` -/

def cfg2 : CacheConfig := { cacheExpiry := 300000, maxCacheSize := 2 }

def cv0 : CacheEntryVal := { payload := 0, expiry := none }

def emptyCache : CacheState := { entries := [], cacheIndex := [], cacheSize := 0 }

def c1After3 : CacheState :=
  RequestCache.set cfg2 0
    (RequestCache.set cfg2 0 (RequestCache.set cfg2 0 emptyCache "a" cv0) "b" cv0) "c" cv0

/-- C1.  The claim says that a cache configured with maximum size 2 never
holds more than 2 entries (the oldest key being evicted on overflow) and that
the tracked entry count matches the stored entries.  The code violates this:
after three inserts into an empty cache, all three entries are stored
(nothing was evicted, because the eviction guard compares against the
never-assigned `_max_session_size`, a comparison with `undefined` that is
always false) and the tracked size is still 0 (the `size` setter discards
the assigned count). -/
theorem c1_cache_bound_violated :
    c1After3.entries.length = 3 ∧ cfg2.maxCacheSize = 2 ∧ 2 < 3 ∧
      RequestCache.size c1After3 = 0 ∧ c1After3.cacheIndex = ["a", "b", "c"] := by
  decide

/-! ### C4: expiry on read -/

def cfgD : CacheConfig := { cacheExpiry := 300000, maxCacheSize := 10000 }

def c4St1 : CacheState := RequestCache.set cfgD 0 emptyCache "k" cv0

/-- C4 counterexample.  Key `"k"` is inserted at time 0 with the default
five-minute expiry, so its stored absolute expiry is 300000.  At any later
instant — say 400000, past the expiry — with the sweep not having run,
`get "k"` still returns the stored value: `RequestCache.get` consults no
clock at all, so its result cannot change once the expiry passes.  The claim
says it would return absent. -/
theorem c4_get_ignores_expiry :
    RequestCache.entryExpiry c4St1 "k" = some 300000 ∧ (300000 : Int) < 400000 ∧
      RequestCache.get c4St1 "k" = some cv0 := by
  decide

theorem findEntry_putEntry_self (l : List (String × CacheEntryVal × Int)) (a : String)
    (v : CacheEntryVal × Int) : findEntry (putEntry l a v) a = some v := by
  induction l with
  | nil => simp [putEntry, findEntry]
  | cons e rest ih =>
    by_cases hk : e.1 = a
    · simp [putEntry, hk, findEntry]
    · simp [putEntry, hk, findEntry, ih]

theorem findEntry_filter_expired (now : Int) (k : String)
    (l : List (String × CacheEntryVal × Int)) (h : ∀ v e, (k, v, e) ∈ l → e ≤ now) :
    findEntry (l.filter (fun e => ¬ (e.2.2 ≤ now))) k = none := by
  induction l with
  | nil => simp [findEntry]
  | cons e rest ih =>
    have ihr := ih (fun v e2 hm => h v e2 (List.mem_cons_of_mem _ hm))
    rw [List.filter_cons]
    by_cases hp : e.2.2 ≤ now
    · simpa [hp] using ihr
    · have hk : e.1 ≠ k := by
        intro hk
        have hm : (k, e.2.1, e.2.2) ∈ e :: rest := by
          rw [← hk]; exact List.mem_cons_self _ _
        exact hp (h e.2.1 e.2.2 hm)
      simpa [hp, findEntry, hk] using ihr

/-- C4 amended.  `get` after `set` returns the stored value whenever the key
is present, regardless of any expiry (within the window and past it alike);
an entry past its expiry is only removed when the sweep body runs, after
which `get` returns absent. -/
theorem c4_get_stored_value_sweep_removes :
    (∀ cfg now st k v, RequestCache.get (RequestCache.set cfg now st k v) k = some v) ∧
    (∀ st k now, (∀ v e, (k, v, e) ∈ st.entries → e ≤ now) →
      RequestCache.get (RequestCache.sweep now st) k = none) := by
  constructor
  · intro cfg now st k v
    simp [RequestCache.set, RequestCache.get, jsGeUndefined, findEntry_putEntry_self]
  · intro st k now h
    have hf := findEntry_filter_expired now k st.entries h
    simp only [not_le] at hf
    simp [RequestCache.sweep, RequestCache.get, hf]

/-- Witness for C4's amended theorem at concrete inputs: insert `"k"` at
time 0 (expiry 300000) and sweep at time 300000. -/
theorem c4_witness :
    RequestCache.get (RequestCache.set cfgD 0 emptyCache "k" cv0) "k" = some cv0 ∧
      RequestCache.get (RequestCache.sweep 300000 c4St1) "k" = none := by
  have hexp : ∀ v e, ("k", v, e) ∈ c4St1.entries → e ≤ 300000 := by
    intro v e hm
    have hl : c4St1.entries = [("k", cv0, 300000)] := by decide
    rw [hl] at hm
    simp only [List.mem_singleton, Prod.mk.injEq] at hm
    rw [hm.2.2]
  exact ⟨c4_get_stored_value_sweep_removes.1 cfgD 0 emptyCache "k" cv0,
    c4_get_stored_value_sweep_removes.2 c4St1 "k" 300000 hexp⟩

/-! ## Block subsidy and transaction decoration
(`getBlockReward`, `BitcoinCore._processTxVout`, `BitcoinCore.getTransaction`,
src/src/bitcoin-core.js lines 23-29 and 296-397)

Money values here are `ℚ`.  Modelled from the spec: the external currency
module (`./currency`, not under src/) wraps an arbitrary-precision decimal
number (`Bitcoin.BN`) whose `add`/`minus`/`times`/`dividedBy`/`pow` are exact
on every value these claims touch; `ℚ` carries those operations exactly.
`pow2Q n` is `BN(2).pow(n)` (2 to an integer power, exact). -/

def pow2Q : Int → ℚ
  | .ofNat n => (2 : ℚ) ^ n
  | .negSucc n => 1 / (2 : ℚ) ^ (n + 1)

/-- `getBlockReward(height)` (lines 23-29): 50 BTC in satoshis, halved once
per completed 210000-block interval.  `Math.floor(height / halvingInterval)`
is floor division, `Int.fdiv`. -/
def getBlockReward (height : Int) : ℚ :=
  (50 * 100000000 : ℚ) / pow2Q (Int.fdiv height 210000)

structure GScriptPubKey where
  address : Option String
  hex : String
deriving DecidableEq, Repr

structure GVout where
  value : ℚ
  n : Nat
  scriptPubKey : GScriptPubKey
deriving DecidableEq, Repr

/-- A decoded input.  `coinbase = some cb` models a `vin` carrying a
`coinbase` field; otherwise `txid`/`voutIndex` reference the parent output
(`vin.txid`, `vin.vout`). -/
structure GVin where
  coinbase : Option String
  txid : String
  voutIndex : Nat
deriving DecidableEq, Repr

structure GDecoded where
  vout : List GVout
  vin : List GVin
deriving DecidableEq, Repr

/-- A transaction as returned by `_txGet` (fetch plus `_procTxHeight`): the
`height` field is already set (0 = unconfirmed). -/
structure GTx where
  txid : String
  height : Int
  decoded : GDecoded
deriving DecidableEq, Repr

/-- `_processTxVout(vout, tx)` (lines 296-305).  The caller `getTransaction`
assigns `newvout.tx_height = tx.height` right after — the same value this
embedding already stores — so the assignment is folded into the
constructor. -/
structure OutRes where
  address : Option String
  value : ℚ
  witness_hex : String
  index : Nat
  txid : String
  height : Int
  tx_height : Int
deriving DecidableEq, Repr

def processTxVout (vout : GVout) (tx : GTx) : OutRes :=
  { address := vout.scriptPubKey.address, value := vout.value,
    witness_hex := vout.scriptPubKey.hex, index := vout.n,
    txid := tx.txid, height := tx.height, tx_height := tx.height }

/-- A resolved input of the decorated result.  Fields the claims never
consult (`witness_hex`, `index`, `height`, `out_type`) are omitted. -/
structure InRes where
  prev_txid : String
  prev_index : Nat
  prev_tx_height : Int
  txid : String
  address : Option String
  value : ℚ
deriving DecidableEq, Repr

/-- The coinbase branch of the input fold (lines 366-378): the synthesized
input carries the block reward evaluated at `tx.height - 1`. -/
def coinbaseIn (cb : String) (tx : GTx) : InRes :=
  { prev_txid := cb ++ "00000000", prev_index := 0, prev_tx_height := tx.height - 1,
    txid := cb, address := some cb, value := getBlockReward (tx.height - 1) }

structure OutAcc where
  outs : List OutRes
  stds : List Bool
  total : ℚ
deriving DecidableEq, Repr

/-- One step of the output fold (lines 352-362): an output with no
resolvable address pushes `false` onto `std_out` and is dropped from
`data.out` (the `.filter(Boolean)`), and its value is not added to
`totalOut`; an address-bearing output pushes `true`, is kept, and its value
is accumulated. -/
def outStep (tx : GTx) (acc : OutAcc) (v : GVout) : OutAcc :=
  let nv := processTxVout v tx
  match nv.address with
  | none => { acc with stds := acc.stds ++ [false] }
  | some _ =>
    { outs := acc.outs ++ [nv], stds := acc.stds ++ [true], total := acc.total + nv.value }

def processOuts (tx : GTx) : OutAcc :=
  tx.decoded.vout.foldl (outStep tx) { outs := [], stds := [], total := 0 }

structure InAcc where
  ins : List InRes
  stds : List Bool
  total : ℚ
  unconf : List String
deriving DecidableEq, Repr

/-- One step of the input fold (lines 364-388).  `lookup` abstracts `_txGet`
(node fetch through the request cache).  A coinbase input contributes its
synthesized record but its value is NOT added to `totalIn` (the JS coinbase
branch returns before the `totalIn = totalIn.add(...)` line); a regular
input re-fetches its parent and extracts the referenced output.  A failed
parent fetch or an out-of-range output index rejects the whole call
(`none`). -/
def inStep (lookup : String → Option GTx) (tx : GTx) (acc : InAcc) (vin : GVin) :
    Option InAcc :=
  match vin.coinbase with
  | some cb => some { acc with ins := acc.ins ++ [coinbaseIn cb tx], stds := acc.stds ++ [false] }
  | none =>
    match lookup vin.txid with
    | none => none
    | some prev =>
      match prev.decoded.vout[vin.voutIndex]? with
      | none => none
      | some pv =>
        let nv := processTxVout pv tx
        some { ins := acc.ins ++ [{ prev_txid := vin.txid, prev_index := vin.voutIndex,
                                    prev_tx_height := prev.height, txid := nv.txid,
                                    address := nv.address, value := nv.value }],
               stds := acc.stds ++ [false],
               total := acc.total + nv.value,
               unconf := acc.unconf ++ (if prev.height = 0 then [vin.txid] else []) }

def processIns (lookup : String → Option GTx) (tx : GTx) : Option InAcc :=
  tx.decoded.vin.foldlM (inStep lookup tx) { ins := [], stds := [], total := 0, unconf := [] }

/-- The decorated transaction (`data` of `getTransaction`). -/
structure DecTx where
  txid : String
  height : Int
  out : List OutRes
  in_ : List InRes
  unconfirmed_inputs : List String
  std_out : List Bool
  std_in : List Bool
  fee : ℚ
deriving DecidableEq, Repr

/-- `BitcoinCore.getTransaction` (lines 338-397).  The fee guard is the JS
`totalIn.toNumber() === 0` test; in the zero branch the fee is `totalIn`
itself (the zero value). -/
def getTransaction (lookup : String → Option GTx) (txid : String) : Option DecTx :=
  (lookup txid).bind (fun tx =>
    (processIns lookup tx).map (fun iAcc =>
      ({ txid := txid, height := tx.height,
         out := (processOuts tx).outs, in_ := iAcc.ins,
         unconfirmed_inputs := iAcc.unconf,
         std_out := (processOuts tx).stds, std_in := iAcc.stds,
         fee := if iAcc.total = (0 : ℚ) then iAcc.total
                else iAcc.total - (processOuts tx).total } : DecTx)))

/-- The total value of the address-bearing (standard) outputs — the quantity
the code accumulates as `totalOut`. -/
def stdOutTotal : List GVout → ℚ
  | [] => 0
  | v :: rest => (if v.scriptPubKey.address.isSome then v.value else 0) + stdOutTotal rest

/-- The total value of ALL outputs, as claim C3's words have it. -/
def allOutTotal : List GVout → ℚ
  | [] => 0
  | v :: rest => v.value + allOutTotal rest

/-- The sum of the resolved values of the non-coinbase inputs — the quantity
the code accumulates as `totalIn`. -/
def resolvedInTotal (lookup : String → Option GTx) : List GVin → Option ℚ
  | [] => some 0
  | vin :: rest =>
    match vin.coinbase with
    | some _ => resolvedInTotal lookup rest
    | none =>
      match lookup vin.txid with
      | none => none
      | some prev =>
        match prev.decoded.vout[vin.voutIndex]? with
        | none => none
        | some pv => (resolvedInTotal lookup rest).map (fun s => pv.value + s)

/-- The sum of ALL resolved input values, as claim C3's words have it: a
coinbase input resolves to the block reward at the owning transaction's
height minus one. -/
def allResolvedInTotal (lookup : String → Option GTx) (tx : GTx) : List GVin → Option ℚ
  | [] => some 0
  | vin :: rest =>
    match vin.coinbase with
    | some _ =>
      (allResolvedInTotal lookup tx rest).map (fun s => getBlockReward (tx.height - 1) + s)
    | none =>
      match lookup vin.txid with
      | none => none
      | some prev =>
        match prev.decoded.vout[vin.voutIndex]? with
        | none => none
        | some pv => (allResolvedInTotal lookup tx rest).map (fun s => pv.value + s)

theorem outFold_stds (tx : GTx) (vl : List GVout) : ∀ acc : OutAcc,
    (List.foldl (outStep tx) acc vl).stds =
      acc.stds ++ vl.map (fun v => v.scriptPubKey.address.isSome) := by
  induction vl with
  | nil => intro acc; simp
  | cons v rest ih =>
    intro acc
    cases hv : v.scriptPubKey.address with
    | none => simp [outStep, processTxVout, hv, ih]
    | some a => simp [outStep, processTxVout, hv, ih]

theorem outFold_len (tx : GTx) (vl : List GVout) : ∀ acc : OutAcc,
    (List.foldl (outStep tx) acc vl).outs.length =
      acc.outs.length + (vl.filter (fun v => v.scriptPubKey.address.isSome)).length := by
  induction vl with
  | nil => intro acc; simp
  | cons v rest ih =>
    intro acc
    cases hv : v.scriptPubKey.address with
    | none => simp [outStep, processTxVout, hv, ih, List.filter_cons]
    | some a =>
      simp [outStep, processTxVout, hv, ih, List.filter_cons]
      omega

theorem outFold_total (tx : GTx) (vl : List GVout) : ∀ acc : OutAcc,
    (List.foldl (outStep tx) acc vl).total = acc.total + stdOutTotal vl := by
  induction vl with
  | nil => intro acc; simp [stdOutTotal]
  | cons v rest ih =>
    intro acc
    cases hv : v.scriptPubKey.address with
    | none => simp [outStep, processTxVout, hv, ih, stdOutTotal]
    | some a => simp [outStep, processTxVout, hv, ih, stdOutTotal, add_assoc]

theorem inFold_total (lookup : String → Option GTx) (tx : GTx) (vins : List GVin) :
    ∀ acc r, List.foldlM (inStep lookup tx) acc vins = some r →
      ∃ s, resolvedInTotal lookup vins = some s ∧ r.total = acc.total + s := by
  induction vins with
  | nil =>
    intro acc r h
    simp only [List.foldlM_nil] at h
    obtain rfl : acc = r := by simpa using h
    exact ⟨0, rfl, by simp⟩
  | cons vin rest ih =>
    intro acc r h
    rw [List.foldlM_cons] at h
    cases hcb : vin.coinbase with
    | some cb =>
      simp only [inStep, hcb, Option.some_bind] at h
      obtain ⟨s, hs, ht⟩ := ih _ r h
      exact ⟨s, by simp [resolvedInTotal, hcb, hs], by simpa using ht⟩
    | none =>
      cases hl : lookup vin.txid with
      | none => simp [inStep, hcb, hl] at h
      | some prev =>
        cases hg : prev.decoded.vout[vin.voutIndex]? with
        | none => simp [inStep, hcb, hl, hg] at h
        | some pv =>
          simp only [inStep, hcb, hl, hg, Option.some_bind] at h
          obtain ⟨s, hs, ht⟩ := ih _ r h
          refine ⟨pv.value + s, ?_, ?_⟩
          · simp [resolvedInTotal, hcb, hl, hg, hs]
          · rw [ht]; simp [processTxVout]; ring

/-! ### C3: the fee formula -/

/-- C3 amended.  For every transaction decorated by `getTransaction`: if the
total resolved NON-COINBASE input value is exactly zero (in particular the
pure-coinbase case), the reported fee is that zero, not a negative number;
otherwise the fee equals the sum of the resolved non-coinbase input values
minus the sum of the values of the ADDRESS-BEARING (standard) outputs —
coinbase input values and non-standard output values are left out of the
totals.  Recomputing from the same raw inputs is deterministic. -/
theorem c3_fee_formula (lookup : String → Option GTx) (txid : String) (tx : GTx) (d : DecTx)
    (hl : lookup txid = some tx) (hg : getTransaction lookup txid = some d) :
    ∃ s, resolvedInTotal lookup tx.decoded.vin = some s ∧
      d.fee = (if s = 0 then 0 else s - stdOutTotal tx.decoded.vout) ∧
      getTransaction lookup txid = getTransaction lookup txid := by
  rw [getTransaction, hl] at hg
  rw [Option.some_bind] at hg
  cases hp : processIns lookup tx with
  | none => rw [hp] at hg; simp at hg
  | some iAcc =>
    rw [hp, Option.map_some'] at hg
    have hd := Option.some.inj hg
    obtain ⟨s, hs, ht⟩ := inFold_total lookup tx tx.decoded.vin _ iAcc (by rw [← processIns]; exact hp)
    have htot : iAcc.total = s := by rw [ht]; simp
    have hout : (processOuts tx).total = stdOutTotal tx.decoded.vout := by
      rw [processOuts, outFold_total]; simp
    refine ⟨s, hs, ?_, rfl⟩
    rw [← hd]
    simp only [htot, hout]
    split
    · next hzero => exact hzero
    · rfl

/-! Concrete decoration input shared by the C3 and C9 theorems: `"t1"` has a
coinbase input, one regular input worth 10 resolved through parent `"t0"`,
one standard output worth 3 and one address-less output worth 5. -/

def spkA : GScriptPubKey := { address := some "A", hex := "aa" }

def spkNS : GScriptPubKey := { address := none, hex := "6a" }

def spkB : GScriptPubKey := { address := some "B", hex := "bb" }

def prevTx0 : GTx :=
  { txid := "t0", height := 1,
    decoded := { vout := [{ value := 10, n := 0, scriptPubKey := spkB }], vin := [] } }

def mainTx1 : GTx :=
  { txid := "t1", height := 2,
    decoded := { vout := [{ value := 3, n := 0, scriptPubKey := spkA },
                          { value := 5, n := 1, scriptPubKey := spkNS }],
                 vin := [{ coinbase := some "cb", txid := "", voutIndex := 0 },
                         { coinbase := none, txid := "t0", voutIndex := 0 }] } }

def lookup1 : String → Option GTx := fun s =>
  if s = "t1" then some mainTx1 else if s = "t0" then some prevTx0 else none

def dW1 : DecTx :=
  (getTransaction lookup1 "t1").getD
    { txid := "", height := 0, out := [], in_ := [], unconfirmed_inputs := [],
      std_out := [], std_in := [], fee := 0 }

/-- C3 counterexample.  Decorating `"t1"` reports fee 7 (= 10 − 3: the
coinbase input's value is not added to `totalIn` and the address-less
output's value 5 is not added to `totalOut`), whereas the claim's "sum of
all resolved input values minus the sum of all output values" is
(5000000000 + 10) − (3 + 5) = 5000000002 ≠ 7. -/
theorem c3_fee_not_all_inputs_outputs :
    (getTransaction lookup1 "t1").map DecTx.fee = some 7 ∧
      allResolvedInTotal lookup1 mainTx1 mainTx1.decoded.vin = some 5000000010 ∧
      allOutTotal mainTx1.decoded.vout = 8 ∧ (7 : ℚ) ≠ 5000000010 - 8 := by
  refine ⟨by with_unfolding_all rfl, by with_unfolding_all rfl, by with_unfolding_all rfl, ?_⟩
  norm_num

/-- Witness for C3's amended theorem at the concrete input `"t1"`. -/
theorem c3_fee_formula_witness : dW1.fee = 10 - stdOutTotal mainTx1.decoded.vout := by
  obtain ⟨s, hs, hfee, -⟩ :=
    c3_fee_formula lookup1 "t1" mainTx1 dW1 (by with_unfolding_all rfl)
      (by with_unfolding_all rfl)
  have hs10 : s = 10 := by
    have h10 : resolvedInTotal lookup1 mainTx1.decoded.vin = some 10 := by
      with_unfolding_all rfl
    rw [h10] at hs
    exact (Option.some.inj hs).symm
  rw [hfee, hs10, if_neg (by norm_num : (10 : ℚ) ≠ 0)]

/-! ### C9: non-standard outputs and `std_out` alignment -/

/-- C9 amended.  `std_out` records one flag per output of the RAW decoded
transaction, in order (`true` exactly when the output's script has a
resolvable address), so it is aligned one-to-one with the raw output list,
not with the returned output list: outputs with no resolvable address are
dropped from the returned `out` list (which keeps exactly the
address-bearing outputs). -/
theorem c9_std_out_alignment (lookup : String → Option GTx) (txid : String) (tx : GTx)
    (d : DecTx) (hl : lookup txid = some tx) (hg : getTransaction lookup txid = some d) :
    d.std_out = tx.decoded.vout.map (fun v => v.scriptPubKey.address.isSome) ∧
      d.out.length = (tx.decoded.vout.filter (fun v => v.scriptPubKey.address.isSome)).length ∧
      d.std_out.length = tx.decoded.vout.length := by
  rw [getTransaction, hl] at hg
  rw [Option.some_bind] at hg
  cases hp : processIns lookup tx with
  | none => rw [hp] at hg; simp at hg
  | some iAcc =>
    rw [hp, Option.map_some'] at hg
    have hd := Option.some.inj hg
    have h1 : d.std_out = tx.decoded.vout.map (fun v => v.scriptPubKey.address.isSome) := by
      rw [← hd]
      show (processOuts tx).stds = _
      rw [processOuts, outFold_stds]
      simp
    refine ⟨h1, ?_, ?_⟩
    · rw [← hd]
      show (processOuts tx).outs.length = _
      rw [processOuts, outFold_len]
      simp
    · rw [h1, List.length_map]

/-- C9 counterexample.  Decorating `"t1"` (two raw outputs, the second
address-less) returns an `out` list of length 1 — the non-standard output is
dropped, not retained — while `std_out` is `[true, false]` of length 2, so
the marker sequence is not aligned one-to-one with the returned output
list. -/
theorem c9_nonstandard_output_dropped :
    (getTransaction lookup1 "t1").map (fun d => d.out.length) = some 1 ∧
      (getTransaction lookup1 "t1").map DecTx.std_out = some [true, false] ∧
      (1 : Nat) ≠ 2 := by
  exact ⟨by with_unfolding_all rfl, by with_unfolding_all rfl, by decide⟩

/-- Witness for C9's amended theorem at the concrete input `"t1"`. -/
theorem c9_std_out_alignment_witness : dW1.std_out = [true, false] ∧ dW1.out.length = 1 := by
  obtain ⟨h1, h2, -⟩ :=
    c9_std_out_alignment lookup1 "t1" mainTx1 dW1 (by with_unfolding_all rfl)
      (by with_unfolding_all rfl)
  constructor
  · rw [h1]; with_unfolding_all rfl
  · rw [h2]; with_unfolding_all rfl

/-! ### C7: the block-subsidy schedule -/

/-- C7.  For every non-negative height `h`, `getBlockReward h` is 50×10⁸
divided by 2 to the `h / 210000` (floor division), in particular 50×10⁸ on
all of [0, 209999], 25×10⁸ at 210000 and 12.5×10⁸ at 420000; and the
synthesized coinbase input of `getTransaction` carries the reward evaluated
at one less than the owning transaction's height. -/
theorem c7_block_reward_schedule :
    (∀ h : ℕ, getBlockReward (h : ℤ) = 5000000000 / 2 ^ (h / 210000)) ∧
      getBlockReward 0 = 5000000000 ∧ getBlockReward 209999 = 5000000000 ∧
      getBlockReward 210000 = 2500000000 ∧ getBlockReward 420000 = 1250000000 ∧
      (∀ tx cb, (coinbaseIn cb tx).value = getBlockReward (tx.height - 1)) := by
  refine ⟨?_, ?_, ?_, ?_, ?_, fun tx cb => rfl⟩
  · intro h
    rw [getBlockReward, show (210000 : ℤ) = ((210000 : ℕ) : ℤ) from rfl, ← Int.ofNat_fdiv]
    with_unfolding_all rfl
  all_goals with_unfolding_all rfl

/-! ## Address-subscription transaction events
(`BitcoinCore._handleTxEvent`, src/src/bitcoin-core.js lines 497-505)

The decoded raw transaction delivered by the event socket is a `GDecoded`
(the `vout` field is what the handler inspects against the watch list
`this._address_subscriptions`). -/

/-- The predicate `_handleTxEvent` passes to `Array.filter` is an `async`
arrow: it returns a Promise object, and every object is truthy in JS, so the
filter keeps every element no matter what the awaited address check would
have said.  This function embeds that: it receives the would-be boolean and
returns `true`. -/
def jsAsyncPredTruthy (_b : Bool) : Bool := true

/-- The address check written inside the filter predicate:
`this._address_subscriptions.includes(out.scriptPubKey.address)`
(`includes(undefined)` is `false` for an address-less output). -/
def voutWatched (subs : List String) (out : GVout) : Bool :=
  match out.scriptPubKey.address with
  | some a => subs.contains a
  | none => false

/-- The `addressUtxo` list of `_handleTxEvent`:
`tx.vout.filter(async (out) => this._address_subscriptions.includes(...))`. -/
def handleTxEventMatches (subs : List String) (tx : GDecoded) : List GVout :=
  tx.vout.filter (fun out => jsAsyncPredTruthy (voutWatched subs out))

/-- Whether `_handleTxEvent` emits the `new-tx` notification:
`if (addressUtxo.length) { this.emit('new-tx', tx) }`. -/
def handleTxEventEmits (subs : List String) (tx : GDecoded) : Bool :=
  (handleTxEventMatches subs tx).length != 0

/-- The check claim C5 describes: some output of the decoded transaction
pays a currently watched address. -/
def someVoutPaysWatched (subs : List String) (tx : GDecoded) : Bool :=
  tx.vout.any (fun out => voutWatched subs out)

def txPayingB : GDecoded :=
  { vout := [{ value := 1, n := 0, scriptPubKey := { address := some "addrB", hex := "bb" } }],
    vin := [] }

/-- C5.  With watch list `["addrA"]` and a transaction whose only output
pays `"addrB"`, the handler still emits `new-tx` — the claim (and the
intent of the inline predicate) says it must not.  In general the handler
emits exactly when the decoded transaction has at least one output, because
the `async` filter predicate returns a Promise, which is always truthy. -/
theorem c5_new_tx_emitted_without_watched_output :
    handleTxEventEmits ["addrA"] txPayingB = true ∧
      someVoutPaysWatched ["addrA"] txPayingB = false ∧
      (∀ subs tx, handleTxEventEmits subs tx = !tx.vout.isEmpty) := by
  refine ⟨by decide, by decide, ?_⟩
  intro subs tx
  simp [handleTxEventEmits, handleTxEventMatches, jsAsyncPredTruthy]
  cases tx.vout <;> simp

/-! ## Wallet sync engine: the balance ledger
(`SyncManager`, src/unnamed/part_000)

Modelled from the spec: the `Balance` value class and the per-address ledger
record come from `address-manager.js`, which is a file of this repository
not included under src/.  Per spec §3, a `Balance` is three signed amount
buckets {confirmed, pending, mempool} (modelled as `Int`), and the
per-address record holds an `in`, an `out` and a `fee` balance plus the two
seen-point lists `intxid`/`outtxid`; `AddressManager.newAddress` creates a
fresh record with zero balances and empty lists, `get`/`set` read and write
the record under its address key.  Everything else below is embedded
directly from `SyncManager` in part_000. -/

inductive TxState where
  | confirmed
  | pending
  | mempool
deriving DecidableEq, Repr

structure Balance where
  confirmed : Int
  pending : Int
  mempool : Int
deriving DecidableEq, Repr

def Balance.addBucket (b : Balance) (ts : TxState) (v : Int) : Balance :=
  match ts with
  | .confirmed => { b with confirmed := b.confirmed + v }
  | .pending => { b with pending := b.pending + v }
  | .mempool => { b with mempool := b.mempool + v }

/-- The direction tag `inout` of `_processUtxo`: the JS strings
`'out'` / `'in'`. -/
inductive Dir where
  | out
  | inc
deriving DecidableEq, Repr

/-- The per-address ledger record (`bal` in `_processUtxo`). -/
structure AddrBal where
  in_ : Balance
  out : Balance
  fee : Balance
  intxid : List String
  outtxid : List String
deriving DecidableEq, Repr

def AddrBal.fresh : AddrBal :=
  { in_ := ⟨0, 0, 0⟩, out := ⟨0, 0, 0⟩, fee := ⟨0, 0, 0⟩, intxid := [], outtxid := [] }

/-- The aggregate ledger `this._total`. -/
structure TotalBal where
  in_ : Balance
  out : Balance
  fee : Balance
deriving DecidableEq, Repr

/-- The mutable state the ledger fold touches: the address store (`_addr`)
and the aggregate total.  (`_addr.storeTxHistory` and the unspent store are
not represented: they hold no balance bucket.) -/
structure LedgerState where
  addrs : List (String × AddrBal)
  total : TotalBal
deriving DecidableEq, Repr

def lookupAddr : List (String × AddrBal) → String → Option AddrBal
  | [], _ => none
  | (k, v) :: rest, a => if k = a then some v else lookupAddr rest a

def setAddr : List (String × AddrBal) → String → AddrBal → List (String × AddrBal)
  | [], a, v => [(a, v)]
  | (k, w) :: rest, a, v => if k = a then (a, v) :: rest else (k, w) :: setAddr rest a v

/-! ### C8: the derived three-bucket balance (`SyncManager.getBalance`) -/

/-- `SyncManager.getBalance(addr)` (part_000 lines 214-227).  With an
address: look up its record (throw when absent) and derive
`mempool = out.mempool − in.mempool`, `confirmed = out.confirmed −
in.confirmed`, `pending = |in.pending − out.pending|`.  Without an address
the same formula is applied to the aggregate total. -/
def SyncManager.getBalance (st : LedgerState) (addr : Option String) : Except String Balance :=
  match addr with
  | none =>
    .ok { confirmed := st.total.out.confirmed - st.total.in_.confirmed,
          pending := abs (st.total.in_.pending - st.total.out.pending),
          mempool := st.total.out.mempool - st.total.in_.mempool }
  | some a =>
    match lookupAddr st.addrs a with
    | none => .error ("Address not valid or not processed for balance " ++ a)
    | some total =>
      .ok { confirmed := total.out.confirmed - total.in_.confirmed,
            pending := abs (total.in_.pending - total.out.pending),
            mempool := total.out.mempool - total.in_.mempool }

/-- C8.  For every address with a ledger record the derived balance is
{confirmed = out.confirmed − in.confirmed, pending = |in.pending −
out.pending|, mempool = out.mempool − in.mempool}; an address without a
record is rejected with an error. -/
theorem c8_balance_derivation (st : LedgerState) (a : String) :
    (∀ rec, lookupAddr st.addrs a = some rec →
      SyncManager.getBalance st (some a) =
        .ok { confirmed := rec.out.confirmed - rec.in_.confirmed,
              pending := abs (rec.in_.pending - rec.out.pending),
              mempool := rec.out.mempool - rec.in_.mempool }) ∧
    (lookupAddr st.addrs a = none →
      SyncManager.getBalance st (some a) =
        .error ("Address not valid or not processed for balance " ++ a)) := by
  constructor
  · intro rec h
    simp [SyncManager.getBalance, h]
  · intro h
    simp [SyncManager.getBalance, h]

def recC8 : AddrBal :=
  { in_ := { confirmed := 2, pending := 4, mempool := 0 },
    out := { confirmed := 5, pending := 1, mempool := 0 },
    fee := ⟨0, 0, 0⟩, intxid := [], outtxid := [] }

def stC8 : LedgerState :=
  { addrs := [("X", recC8)], total := { in_ := ⟨0, 0, 0⟩, out := ⟨0, 0, 0⟩, fee := ⟨0, 0, 0⟩ } }

/-- Witness for C8 at the spec's example buckets (out.confirmed=5,
in.confirmed=2, out.pending=1, in.pending=4, mempool 0/0 → confirmed=3,
pending=3, mempool=0), plus the unknown-address error. -/
theorem c8_balance_derivation_witness :
    SyncManager.getBalance stC8 (some "X") =
      .ok { confirmed := 3, pending := 3, mempool := 0 } ∧
    SyncManager.getBalance stC8 (some "Y") =
      .error ("Address not valid or not processed for balance " ++ "Y") := by
  constructor
  · have h := (c8_balance_derivation stC8 "X").1 recC8 (by decide)
    rw [h]
    norm_num [recC8]
  · exact (c8_balance_derivation stC8 "Y").2 (by decide)

/-! ### C2: idempotence of the ledger fold
(`SyncManager._processHistory` / `_processUtxo`, part_000 lines 128-144 and
236-262)

A history entry is a decorated transaction; only the fields the fold reads
are carried.  The fold's `utxo.address_public_key` / `utxo.address_path`
assignments decorate the utxo object handed to the unspent store and touch
no balance, and `_processUtxo`'s trailing `txid` parameter is never read in
its body; neither is represented. -/

structure WUtxo where
  address : String
  txid : String
  index : Nat
  prev_txid : String
  prev_index : Nat
  value : Int
deriving DecidableEq, Repr

structure WTx where
  txid : String
  height : Nat
  fee : Int
  out : List WUtxo
  in_ : List WUtxo
deriving DecidableEq, Repr

/-- The de-duplication point: `utxo.txid + ':' + utxo.index` for the out
direction, `utxo.prev_txid + ':' + utxo.prev_index` for the in direction. -/
def pointOf (dir : Dir) (u : WUtxo) : String :=
  match dir with
  | .out => u.txid ++ ":" ++ toString u.index
  | .inc => u.prev_txid ++ ":" ++ toString u.prev_index

/-- The seen-point list the duplicate guard consults: `bal.outtxid` for
`'out'`, `bal.intxid` for `'in'`. -/
def seenList (bal : AddrBal) : Dir → List String
  | .out => bal.outtxid
  | .inc => bal.intxid

/-- The per-address record update of one accepted utxo:
`bal[inout][txState].add(value)`, plus for `'out'` the fee accumulation and
the `outtxid` push, for `'in'` the `intxid` push. -/
def AddrBal.applyUtxo (bal : AddrBal) (dir : Dir) (ts : TxState) (v txFee : Int)
    (pt : String) : AddrBal :=
  match dir with
  | .out => { bal with out := bal.out.addBucket ts v, fee := bal.fee.addBucket ts txFee,
                       outtxid := bal.outtxid ++ [pt] }
  | .inc => { bal with in_ := bal.in_.addBucket ts v, intxid := bal.intxid ++ [pt] }

/-- The aggregate update `_total[inout][txState].add(value)` (no fee bucket
on the aggregate in this code path). -/
def TotalBal.applyUtxo (t : TotalBal) (dir : Dir) (ts : TxState) (v : Int) : TotalBal :=
  match dir with
  | .out => { t with out := t.out.addBucket ts v }
  | .inc => { t with in_ := t.in_.addBucket ts v }

/-- One iteration of `_processUtxo` (lines 239-261): skip when the utxo's
address is not the address under processing or has no ledger record; skip
when the point was already recorded for this direction; otherwise add the
value into the per-address and aggregate buckets and record the point. -/
def processUtxoStep (addrAddress : String) (dir : Dir) (ts : TxState) (txFee : Int)
    (st : LedgerState) (u : WUtxo) : LedgerState :=
  if u.address ≠ addrAddress then st
  else
    match lookupAddr st.addrs u.address with
    | none => st
    | some bal =>
      if pointOf dir u ∈ seenList bal dir then st
      else
        { addrs := setAddr st.addrs u.address
            (bal.applyUtxo dir ts u.value txFee (pointOf dir u)),
          total := st.total.applyUtxo dir ts u.value }

/-- `SyncManager._processUtxo` over a utxo list, in list order. -/
def SyncManager.processUtxo (addrAddress : String) (dir : Dir) (ts : TxState) (txFee : Int)
    (st : LedgerState) (us : List WUtxo) : LedgerState :=
  us.foldl (processUtxoStep addrAddress dir ts txFee) st

/-- `SyncManager._getTxState` (lines 229-234).  The JS subtraction
`this.currentBlock - tx.height` can be negative, so it is compared over
`Int`. -/
def SyncManager.getTxState (currentBlock minBlockConfirm : Nat) (tx : WTx) : TxState :=
  if tx.height = 0 then .mempool
  else if (minBlockConfirm : Int) ≤ (currentBlock : Int) - (tx.height : Int) then .confirmed
  else .pending

/-- The per-transaction body of `_processHistory` (lines 139-143): classify
the state, fold the outputs (with the transaction fee), fold the inputs
(fee 0). -/
def processTx (currentBlock minBlockConfirm : Nat) (addrAddress : String)
    (st : LedgerState) (tx : WTx) : LedgerState :=
  let ts := SyncManager.getTxState currentBlock minBlockConfirm tx
  SyncManager.processUtxo addrAddress .inc ts 0
    (SyncManager.processUtxo addrAddress .out ts tx.fee st tx.out) tx.in_

/-- `SyncManager._processHistory` (lines 128-144): create the address's
ledger record if absent (`newAddress`), then fold every history entry.
(`storeTxHistory` persists the raw history outside the balance ledger and is
not represented.) -/
def SyncManager.processHistory (currentBlock minBlockConfirm : Nat) (addrAddress : String)
    (st : LedgerState) (txHistory : List WTx) : LedgerState :=
  let st0 :=
    match lookupAddr st.addrs addrAddress with
    | none => { st with addrs := setAddr st.addrs addrAddress AddrBal.fresh }
    | some _ => st
  txHistory.foldl (processTx currentBlock minBlockConfirm addrAddress) st0

theorem lookupAddr_setAddr_self (l : List (String × AddrBal)) (a : String) (v : AddrBal) :
    lookupAddr (setAddr l a v) a = some v := by
  induction l with
  | nil => simp [setAddr, lookupAddr]
  | cons e rest ih =>
    by_cases hk : e.1 = a
    · simp [setAddr, hk, lookupAddr]
    · simp [setAddr, hk, lookupAddr, ih]

theorem lookupAddr_setAddr_ne (l : List (String × AddrBal)) (a b : String) (v : AddrBal)
    (h : a ≠ b) : lookupAddr (setAddr l a v) b = lookupAddr l b := by
  induction l with
  | nil => simp [setAddr, lookupAddr, h]
  | cons e rest ih =>
    by_cases hk : e.1 = a
    · simp [setAddr, hk, lookupAddr, h, ih]
    · simp [setAddr, hk, lookupAddr, ih]

/-- `b'` extends `b`'s seen-point lists (in both directions). -/
def seenSub (b b' : AddrBal) : Prop :=
  ∀ d p, p ∈ seenList b d → p ∈ seenList b' d

theorem seenSub_refl (b : AddrBal) : seenSub b b := fun _ _ hp => hp

theorem seenSub_trans {a b c : AddrBal} (h1 : seenSub a b) (h2 : seenSub b c) :
    seenSub a c := fun d p hp => h2 d p (h1 d p hp)

theorem seenSub_applyUtxo (bal : AddrBal) (dir : Dir) (ts : TxState) (v txFee : Int)
    (pt : String) : seenSub bal (bal.applyUtxo dir ts v txFee pt) := by
  intro d p hp
  cases dir <;> cases d <;>
    simp only [AddrBal.applyUtxo, seenList] at hp ⊢ <;>
    simp [List.mem_append, hp]

theorem step_mono (a0 : String) (dir : Dir) (ts : TxState) (fee : Int) (st : LedgerState)
    (u : WUtxo) (a : String) (b : AddrBal) (h : lookupAddr st.addrs a = some b) :
    ∃ b', lookupAddr (processUtxoStep a0 dir ts fee st u).addrs a = some b' ∧ seenSub b b' := by
  by_cases h1 : u.address = a0
  · subst h1
    rw [processUtxoStep]
    simp only [ne_eq, not_true_eq_false, if_false]
    cases h2 : lookupAddr st.addrs u.address with
    | none => exact ⟨b, h, seenSub_refl b⟩
    | some bal =>
      dsimp only
      by_cases h3 : pointOf dir u ∈ seenList bal dir
      · rw [if_pos h3]
        exact ⟨b, h, seenSub_refl b⟩
      · rw [if_neg h3]
        by_cases h4 : a = u.address
        · subst h4
          rw [lookupAddr_setAddr_self]
          have hb : b = bal := by rw [h] at h2; exact Option.some.inj h2
          subst hb
          exact ⟨_, rfl, seenSub_applyUtxo b dir ts u.value fee (pointOf dir u)⟩
        · rw [lookupAddr_setAddr_ne _ _ _ _ (fun he => h4 he.symm)]
          exact ⟨b, h, seenSub_refl b⟩
  · rw [processUtxoStep]
    simp only [h1, ne_eq, not_false_eq_true, if_true]
    exact ⟨b, h, seenSub_refl b⟩

theorem utxoFold_mono (a0 : String) (dir : Dir) (ts : TxState) (fee : Int) (us : List WUtxo) :
    ∀ st a b, lookupAddr st.addrs a = some b →
      ∃ b', lookupAddr (SyncManager.processUtxo a0 dir ts fee st us).addrs a = some b' ∧
        seenSub b b' := by
  induction us with
  | nil => exact fun st a b h => ⟨b, h, seenSub_refl b⟩
  | cons u rest ih =>
    intro st a b h
    obtain ⟨b1, h1, s1⟩ := step_mono a0 dir ts fee st u a b h
    obtain ⟨b2, h2, s2⟩ := ih (processUtxoStep a0 dir ts fee st u) a b1 h1
    exact ⟨b2, h2, seenSub_trans s1 s2⟩

theorem processTx_mono (cb mbc : Nat) (a0 : String) (tx : WTx) (st : LedgerState)
    (a : String) (b : AddrBal) (h : lookupAddr st.addrs a = some b) :
    ∃ b', lookupAddr (processTx cb mbc a0 st tx).addrs a = some b' ∧ seenSub b b' := by
  obtain ⟨b1, h1, s1⟩ :=
    utxoFold_mono a0 .out (SyncManager.getTxState cb mbc tx) tx.fee tx.out st a b h
  obtain ⟨b2, h2, s2⟩ :=
    utxoFold_mono a0 .inc (SyncManager.getTxState cb mbc tx) 0 tx.in_ _ a b1 h1
  exact ⟨b2, h2, seenSub_trans s1 s2⟩

theorem txFold_mono (cb mbc : Nat) (a0 : String) (h : List WTx) :
    ∀ st a b, lookupAddr st.addrs a = some b →
      ∃ b', lookupAddr (List.foldl (processTx cb mbc a0) st h).addrs a = some b' ∧
        seenSub b b' := by
  induction h with
  | nil => exact fun st a b hb => ⟨b, hb, seenSub_refl b⟩
  | cons t rest ih =>
    intro st a b hb
    obtain ⟨b1, h1, s1⟩ := processTx_mono cb mbc a0 t st a b hb
    obtain ⟨b2, h2, s2⟩ := ih (processTx cb mbc a0 st t) a b1 h1
    exact ⟨b2, h2, seenSub_trans s1 s2⟩

theorem step_covered (a0 : String) (dir : Dir) (ts : TxState) (fee : Int) (st : LedgerState)
    (u : WUtxo) (hrec : (lookupAddr st.addrs a0).isSome) (hu : u.address = a0) :
    ∃ b', lookupAddr (processUtxoStep a0 dir ts fee st u).addrs a0 = some b' ∧
      pointOf dir u ∈ seenList b' dir := by
  subst hu
  obtain ⟨bal, hb⟩ := Option.isSome_iff_exists.mp hrec
  rw [processUtxoStep]
  simp only [ne_eq, not_true_eq_false, if_false, hb]
  by_cases h3 : pointOf dir u ∈ seenList bal dir
  · simp only [h3, if_true]
    exact ⟨bal, hb, h3⟩
  · simp only [h3, if_false]
    refine ⟨_, lookupAddr_setAddr_self _ _ _, ?_⟩
    cases dir <;> simp [AddrBal.applyUtxo, seenList]

theorem utxoFold_covered (a0 : String) (dir : Dir) (ts : TxState) (fee : Int)
    (us : List WUtxo) :
    ∀ st, (lookupAddr st.addrs a0).isSome → ∀ u ∈ us, u.address = a0 →
      ∃ b', lookupAddr (SyncManager.processUtxo a0 dir ts fee st us).addrs a0 = some b' ∧
        pointOf dir u ∈ seenList b' dir := by
  induction us with
  | nil => intro st _ u hu; exact absurd hu (List.not_mem_nil u)
  | cons v rest ih =>
    intro st hsome u hu hua
    have hstep := step_mono a0 dir ts fee st v
    have hsome1 : (lookupAddr (processUtxoStep a0 dir ts fee st v).addrs a0).isSome := by
      obtain ⟨b, hb⟩ := Option.isSome_iff_exists.mp hsome
      obtain ⟨b1, h1, -⟩ := hstep a0 b hb
      exact Option.isSome_iff_exists.mpr ⟨b1, h1⟩
    rcases List.mem_cons.mp hu with rfl | htail
    · obtain ⟨b1, h1, hp1⟩ := step_covered a0 dir ts fee st u hsome hua
      obtain ⟨b2, h2, s2⟩ := utxoFold_mono a0 dir ts fee rest _ a0 b1 h1
      exact ⟨b2, h2, s2 dir (pointOf dir u) hp1⟩
    · exact ih (processUtxoStep a0 dir ts fee st v) hsome1 u htail hua

/-- All points of `tx` touching `a0` are recorded in `a0`'s ledger record in
state `st`. -/
def coveredTx (st : LedgerState) (a0 : String) (tx : WTx) : Prop :=
  ∃ b, lookupAddr st.addrs a0 = some b ∧
    (∀ u ∈ tx.out, u.address = a0 → pointOf .out u ∈ seenList b .out) ∧
    (∀ u ∈ tx.in_, u.address = a0 → pointOf .inc u ∈ seenList b .inc)

theorem coveredTx_of_seenSub {st st' : LedgerState} {a0 : String} {tx : WTx}
    (hc : coveredTx st a0 tx)
    (hm : ∀ b, lookupAddr st.addrs a0 = some b →
      ∃ b', lookupAddr st'.addrs a0 = some b' ∧ seenSub b b') : coveredTx st' a0 tx := by
  obtain ⟨b, hb, hout, hin⟩ := hc
  obtain ⟨b', hb', s⟩ := hm b hb
  exact ⟨b', hb', fun u hu hua => s .out _ (hout u hu hua),
    fun u hu hua => s .inc _ (hin u hu hua)⟩

theorem processTx_covers_self (cb mbc : Nat) (a0 : String) (tx : WTx) (st : LedgerState)
    (hsome : (lookupAddr st.addrs a0).isSome) :
    coveredTx (processTx cb mbc a0 st tx) a0 tx := by
  obtain ⟨b, hb⟩ := Option.isSome_iff_exists.mp hsome
  have hts : processTx cb mbc a0 st tx =
      SyncManager.processUtxo a0 .inc (SyncManager.getTxState cb mbc tx) 0
        (SyncManager.processUtxo a0 .out (SyncManager.getTxState cb mbc tx) tx.fee st tx.out)
        tx.in_ := rfl
  obtain ⟨b1, h1, -⟩ :=
    utxoFold_mono a0 .out (SyncManager.getTxState cb mbc tx) tx.fee tx.out st a0 b hb
  have hsome1 := Option.isSome_iff_exists.mpr ⟨b1, h1⟩
  obtain ⟨bF, hF, -⟩ :=
    utxoFold_mono a0 .inc (SyncManager.getTxState cb mbc tx) 0 tx.in_ _ a0 b1 h1
  refine ⟨bF, by rw [hts]; exact hF, ?_, ?_⟩
  · intro u hu hua
    obtain ⟨b2, h2, hp2⟩ :=
      utxoFold_covered a0 .out (SyncManager.getTxState cb mbc tx) tx.fee tx.out st hsome u hu hua
    obtain ⟨b3, h3, s3⟩ :=
      utxoFold_mono a0 .inc (SyncManager.getTxState cb mbc tx) 0 tx.in_ _ a0 b2 h2
    have hbF : b3 = bF := by
      rw [show lookupAddr (SyncManager.processUtxo a0 Dir.inc
        (SyncManager.getTxState cb mbc tx) 0 (SyncManager.processUtxo a0 Dir.out
        (SyncManager.getTxState cb mbc tx) tx.fee st tx.out) tx.in_).addrs a0 = some bF from hF]
        at h3
      exact (Option.some.inj h3).symm
    rw [← hbF]
    exact s3 .out _ hp2
  · intro u hu hua
    obtain ⟨b2, h2, hp2⟩ :=
      utxoFold_covered a0 .inc (SyncManager.getTxState cb mbc tx) 0 tx.in_ _ hsome1 u hu hua
    have hbF : b2 = bF := by
      rw [show lookupAddr (SyncManager.processUtxo a0 Dir.inc
        (SyncManager.getTxState cb mbc tx) 0 (SyncManager.processUtxo a0 Dir.out
        (SyncManager.getTxState cb mbc tx) tx.fee st tx.out) tx.in_).addrs a0 = some bF from hF]
        at h2
      exact (Option.some.inj h2).symm
    rw [← hbF]
    exact hp2

theorem step_skip (a0 : String) (dir : Dir) (ts : TxState) (fee : Int) (st : LedgerState)
    (u : WUtxo)
    (h : u.address = a0 → ∃ bal, lookupAddr st.addrs u.address = some bal ∧
      pointOf dir u ∈ seenList bal dir) :
    processUtxoStep a0 dir ts fee st u = st := by
  by_cases h1 : u.address = a0
  · obtain ⟨bal, hb, hp⟩ := h h1
    subst h1
    rw [processUtxoStep]
    simp only [ne_eq, not_true_eq_false, if_false, hb]
    rw [if_pos hp]
  · rw [processUtxoStep]
    simp only [h1, ne_eq, not_false_eq_true, if_true]

theorem utxoFold_skip (a0 : String) (dir : Dir) (ts : TxState) (fee : Int)
    (us : List WUtxo) (st : LedgerState)
    (h : ∀ u ∈ us, u.address = a0 → ∃ bal, lookupAddr st.addrs u.address = some bal ∧
      pointOf dir u ∈ seenList bal dir) :
    SyncManager.processUtxo a0 dir ts fee st us = st := by
  induction us with
  | nil => rfl
  | cons u rest ih =>
    have h1 : processUtxoStep a0 dir ts fee st u = st :=
      step_skip a0 dir ts fee st u (h u (List.mem_cons_self u rest))
    show SyncManager.processUtxo a0 dir ts fee (processUtxoStep a0 dir ts fee st u) rest = st
    rw [h1]
    exact ih (fun v hv => h v (List.mem_cons_of_mem u hv))

theorem processTx_skip (cb mbc : Nat) (a0 : String) (tx : WTx) (st : LedgerState)
    (hc : coveredTx st a0 tx) : processTx cb mbc a0 st tx = st := by
  obtain ⟨b, hb, hout, hin⟩ := hc
  have h1 : SyncManager.processUtxo a0 .out (SyncManager.getTxState cb mbc tx) tx.fee st
      tx.out = st :=
    utxoFold_skip _ _ _ _ _ _ (fun u hu hua => ⟨b, by rw [hua]; exact hb, hout u hu hua⟩)
  have h2 : SyncManager.processUtxo a0 .inc (SyncManager.getTxState cb mbc tx) 0 st
      tx.in_ = st :=
    utxoFold_skip _ _ _ _ _ _ (fun u hu hua => ⟨b, by rw [hua]; exact hb, hin u hu hua⟩)
  show SyncManager.processUtxo a0 .inc (SyncManager.getTxState cb mbc tx) 0
      (SyncManager.processUtxo a0 .out (SyncManager.getTxState cb mbc tx) tx.fee st tx.out)
      tx.in_ = st
  rw [h1, h2]

theorem txFold_covers (cb mbc : Nat) (a0 : String) (h : List WTx) :
    ∀ st, (lookupAddr st.addrs a0).isSome →
      ∀ tx ∈ h, coveredTx (List.foldl (processTx cb mbc a0) st h) a0 tx := by
  induction h with
  | nil => intro st _ tx htx; exact absurd htx (List.not_mem_nil tx)
  | cons t rest ih =>
    intro st hsome tx htx
    obtain ⟨b, hb⟩ := Option.isSome_iff_exists.mp hsome
    obtain ⟨b1, h1, -⟩ := processTx_mono cb mbc a0 t st a0 b hb
    have hsome1 : (lookupAddr (processTx cb mbc a0 st t).addrs a0).isSome :=
      Option.isSome_iff_exists.mpr ⟨b1, h1⟩
    rcases List.mem_cons.mp htx with rfl | htail
    · have hc1 : coveredTx (processTx cb mbc a0 st tx) a0 tx :=
        processTx_covers_self cb mbc a0 tx st hsome
      exact coveredTx_of_seenSub hc1
        (fun b2 hb2 => txFold_mono cb mbc a0 rest (processTx cb mbc a0 st tx) a0 b2 hb2)
    · exact ih (processTx cb mbc a0 st t) hsome1 tx htail

theorem txFold_skip (cb mbc : Nat) (a0 : String) (h : List WTx) (st : LedgerState)
    (hc : ∀ tx ∈ h, coveredTx st a0 tx) :
    List.foldl (processTx cb mbc a0) st h = st := by
  induction h with
  | nil => rfl
  | cons t rest ih =>
    rw [List.foldl_cons, processTx_skip cb mbc a0 t st (hc t (List.mem_cons_self t rest))]
    exact ih (fun tx htx => hc tx (List.mem_cons_of_mem t htx))

theorem history_fold_idem_aux (cb mbc : Nat) (a0 : String) (h : List WTx) (st : LedgerState)
    (hsome : (lookupAddr st.addrs a0).isSome) :
    SyncManager.processHistory cb mbc a0 (List.foldl (processTx cb mbc a0) st h) h =
      List.foldl (processTx cb mbc a0) st h := by
  obtain ⟨b, hb⟩ := Option.isSome_iff_exists.mp hsome
  obtain ⟨bF, hF, -⟩ := txFold_mono cb mbc a0 h st a0 b hb
  rw [SyncManager.processHistory]
  simp only [hF]
  exact txFold_skip cb mbc a0 h _ (txFold_covers cb mbc a0 h st hsome)

/-- C2.  Folding the same address history twice is idempotent: the second
`_processHistory` call leaves the whole ledger state — every per-address
bucket, every aggregate bucket and the seen-point lists — exactly as the
first call left it, because every output point and input point that touches
the address is recorded in the direction's seen-point list by the first
fold and the duplicate guard then skips it. -/
theorem c2_history_fold_idempotent (cb mbc : Nat) (a0 : String) (st : LedgerState)
    (h : List WTx) :
    SyncManager.processHistory cb mbc a0 (SyncManager.processHistory cb mbc a0 st h) h =
      SyncManager.processHistory cb mbc a0 st h := by
  cases h0 : lookupAddr st.addrs a0 with
  | none =>
    have hst : SyncManager.processHistory cb mbc a0 st h =
        List.foldl (processTx cb mbc a0)
          { st with addrs := setAddr st.addrs a0 AddrBal.fresh } h := by
      rw [SyncManager.processHistory]
      simp only [h0]
    rw [hst]
    exact history_fold_idem_aux cb mbc a0 h _
      (Option.isSome_iff_exists.mpr ⟨AddrBal.fresh, lookupAddr_setAddr_self _ _ _⟩)
  | some b =>
    have hst : SyncManager.processHistory cb mbc a0 st h =
        List.foldl (processTx cb mbc a0) st h := by
      rw [SyncManager.processHistory]
      simp only [h0]
    rw [hst]
    exact history_fold_idem_aux cb mbc a0 h st (Option.isSome_iff_exists.mpr ⟨b, h0⟩)

/-! ## Gap-limit scanning (`SyncManager._processPath` / `syncAccount`,
part_000 lines 149-212)

Modelled from the spec: `hdWallet.eachAccount(pathType, startPath, cb)`
(hdwallet.js, a file of this repository not under src/) iterates successive
derivation paths from the start path, awaiting the callback for each, and
stops when the callback invokes its `halt` argument (spec §6, "HD account
iterator ... supports early termination via the halt callback").  The
iteration is therefore embedded as a walk down the list `histories`, whose
`i`-th element is what `provider.getAddressHistory` returns for the `i`-th
path; the path itself, `keyManager.pathToScriptHash` and the address-reuse
bookkeeping (`updateLastPath`) do not affect the scan-control state.  The
halt flag `this._halt` can be flipped by `stopSync()` between awaits, so it
is modelled as the schedule `hs : Nat → Bool` — the value the flag has when
path `i` is processed. -/

/-- `SyncManager._processPath` (lines 149-170), restricted to its
scan-control effect.  `none` models the `[false, null, null, null]` early
return: when the halt flag is observed or the gap count has reached the gap
limit, the function returns BEFORE deriving the path or fetching its
history.  Otherwise `some (hasTx, gapEnd', gapCount')`: an empty history
increments the gap count; a non-empty history is folded into the ledger
(`SyncManager.processHistory`), bumps `gapEnd` and resets the gap count
to 0. -/
def processPath (halt : Bool) (gapLimit : Nat) (history : List WTx)
    (gapEnd gapCount : Nat) : Option (Bool × Nat × Nat) :=
  if halt = true ∨ gapLimit ≤ gapCount then none
  else if history.isEmpty then some (false, gapEnd, gapCount + 1)
  else some (true, gapEnd + 1, 0)

/-- The `eachAccount` loop body of `syncAccount` (lines 185-202): process
the path; on `done = false` call `halt()` (stop iterating, without updating
the persisted sync state — in particular without resetting the persisted gap
count); otherwise persist `syncType.gap = gapCount` and continue.  Returns
(number of paths actually derived-and-fetched, final persisted gap count);
the fetched paths are always the first ones. -/
def syncLoop (gapLimit : Nat) (hs : Nat → Bool) :
    List (List WTx) → Nat → Nat → Nat → Nat → Nat × Nat
  | [], _, _, _, pGap => (0, pGap)
  | hist :: rest, i, gapEnd, gapCount, pGap =>
    match processPath (hs i) gapLimit hist gapEnd gapCount with
    | none => (0, pGap)
    | some (_, gapEnd', gapCount') =>
      let r := syncLoop gapLimit hs rest (i + 1) gapEnd' gapCount' gapCount'
      (r.1 + 1, r.2)

/-- `SyncManager.syncAccount` (lines 172-212): refuse to start when the halt
flag or the busy flag is set (the error message carries both values);
return without processing any path when the persisted gap count already
meets the gap limit; otherwise run the loop with `gapEnd` seeded to
`gapLimit` and the gap count seeded to the persisted value. -/
def SyncManager.syncAccount (halt isSyncing : Bool) (hs : Nat → Bool) (gapLimit : Nat)
    (persistedGap : Nat) (histories : List (List WTx)) : Except String (Nat × Nat) :=
  if halt || isSyncing then
    .error ("already syncing " ++ toString halt ++ " " ++ toString isSyncing)
  else if gapLimit ≤ persistedGap then .ok (0, persistedGap)
  else .ok (syncLoop gapLimit hs histories 0 gapLimit persistedGap persistedGap)

theorem syncLoop_halt_le (gapLimit : Nat) (hs : Nat → Bool) (l : List (List WTx)) :
    ∀ i gE gC pG k, hs (i + k) = true →
      (syncLoop gapLimit hs l i gE gC pG).1 ≤ k := by
  induction l with
  | nil => intro i gE gC pG k _; simp [syncLoop]
  | cons hist rest ih =>
    intro i gE gC pG k hk
    cases hp : processPath (hs i) gapLimit hist gE gC with
    | none => simp [syncLoop, hp]
    | some t =>
      have hsi : hs i = false := by
        cases hval : hs i with
        | false => rfl
        | true => rw [hval] at hp; simp [processPath] at hp
      cases k with
      | zero =>
        rw [Nat.add_zero] at hk
        rw [hk] at hsi
        exact absurd hsi (by simp)
      | succ j =>
        obtain ⟨hasTx, gE', gC'⟩ := t
        have hrec := ih (i + 1) gE' gC' gC' j
          (by rw [show i + 1 + j = i + (j + 1) from by omega]; exact hk)
        simp only [syncLoop, hp]
        omega

theorem syncLoop_empties (gapLimit : Nat) (hs : Nat → Bool) (m : Nat) :
    ∀ l i gE gC, gC + m = gapLimit →
      (∀ j, j < m → l[j]? = some ([] : List WTx)) →
      m < l.length →
      (∀ j, j < m → hs (i + j) = false) →
      syncLoop gapLimit hs l i gE gC gC = (m, gapLimit) := by
  induction m with
  | zero =>
    intro l i gE gC hgc _ hlen _
    cases l with
    | nil => simp at hlen
    | cons hist rest =>
      have : gapLimit ≤ gC := by omega
      simp [syncLoop, processPath, this, hgc]
      omega
  | succ mm ih =>
    intro l i gE gC hgc hemp hlen hhs
    cases l with
    | nil => simp at hlen
    | cons hist rest =>
      have hh0 : hist = [] := by
        have := hemp 0 (Nat.succ_pos mm)
        simpa using this
      have hhs0 : hs i = false := by simpa using hhs 0 (Nat.succ_pos mm)
      have hgl : ¬ (gapLimit ≤ gC) := by omega
      subst hh0
      have hrec := ih rest (i + 1) gE (gC + 1) (by omega)
        (fun j hj => by simpa using hemp (j + 1) (by omega))
        (by simpa using hlen)
        (fun j hj => by
          have := hhs (j + 1) (by omega)
          rwa [show i + (j + 1) = i + 1 + j from by omega] at this)
      simp [syncLoop, processPath, hhs0, hgl, hrec]

/-- C6.  Gap-limit termination of a scan run: (1) a scan started with the
persisted gap count at or above the gap limit processes no path at all and
leaves the persisted gap unchanged; (2) a path at whose turn the halt flag
is observed is never derived or fetched — the number of fetched paths stays
at or below its index; (3) starting below the limit, after exactly
`N − g0` consecutive empty histories the loop stops: only those paths were
fetched (the next path, which exists, is not processed in that run) and the
persisted gap count ends at the limit `N`, not reset, whatever the later
histories hold. -/
theorem c6_gap_limit_termination (N g0 : Nat) (hists : List (List WTx)) (hs : Nat → Bool) :
    (N ≤ g0 → SyncManager.syncAccount false false hs N g0 hists = .ok (0, g0)) ∧
    (∀ k r, hs k = true → SyncManager.syncAccount false false hs N g0 hists = .ok r →
      r.1 ≤ k) ∧
    (g0 < N → (∀ j, j < N - g0 → hists[j]? = some []) → N - g0 < hists.length →
      (∀ j, j < N - g0 → hs j = false) →
      SyncManager.syncAccount false false hs N g0 hists = .ok (N - g0, N)) := by
  refine ⟨?_, ?_, ?_⟩
  · intro hge
    simp [SyncManager.syncAccount, hge]
  · intro k r hk hok
    by_cases hge : N ≤ g0
    · simp [SyncManager.syncAccount, hge] at hok
      simp [← hok]
    · simp [SyncManager.syncAccount, hge] at hok
      rw [← hok]
      exact syncLoop_halt_le N hs hists 0 N g0 g0 k (by simpa using hk)
  · intro hlt hemp hlen hhs
    have hrun := syncLoop_empties N hs (N - g0) hists 0 N g0 (by omega) hemp hlen
      (fun j hj => by simpa using hhs j hj)
    simp only [SyncManager.syncAccount, Bool.or_self, Bool.false_eq_true, if_false]
    rw [if_neg (by omega : ¬ N ≤ g0), hrun]

def txW : WTx := { txid := "w", height := 1, fee := 0, out := [], in_ := [] }

def histsW : List (List WTx) := [[], [], [], [txW]]

/-- Witness for C6 at gap limit 3 over the spec's example shape (paths
P0..P2 empty, P3 non-empty): a run with persisted gap 5 ≥ 3 fetches nothing;
a run whose halt flag turns on at path 2 fetches at most 2 paths (exactly 2
here); an unhalted run fetches exactly paths P0..P2, never derives P3, and
persists gap count 3. -/
theorem c6_gap_limit_termination_witness :
    SyncManager.syncAccount false false (fun _ => false) 3 5 histsW = .ok (0, 5) ∧
    (SyncManager.syncAccount false false (fun k => decide (2 ≤ k)) 3 0 histsW = .ok (2, 2) ∧
      (2 : Nat) ≤ 2) ∧
    SyncManager.syncAccount false false (fun _ => false) 3 0 histsW = .ok (3, 3) := by
  refine ⟨?_, ⟨?_, ?_⟩, ?_⟩
  · exact (c6_gap_limit_termination 3 5 histsW (fun _ => false)).1 (by decide)
  · rfl
  · exact (c6_gap_limit_termination 3 0 histsW (fun k => decide (2 ≤ k))).2.1 2 (2, 2)
      (by rfl) (by rfl)
  · exact (c6_gap_limit_termination 3 0 histsW (fun _ => false)).2.2 (by decide)
      (by decide) (by decide) (by decide)

/-- C10.  A `syncAccount` call made while the halt flag or the busy
(`_isSyncing`) flag is set fails immediately with an error message naming
both flags' current values, before reading the sync state or processing any
path (in this pure embedding the error return is the entire effect, so the
running scan's state is untouched); with both flags clear the call does not
error. -/
theorem c10_sync_already_running (haltF isSyncingF : Bool) (hs : Nat → Bool) (N g0 : Nat)
    (hists : List (List WTx)) :
    ((haltF || isSyncingF) = true →
      SyncManager.syncAccount haltF isSyncingF hs N g0 hists =
        .error ("already syncing " ++ toString haltF ++ " " ++ toString isSyncingF)) ∧
    ((haltF || isSyncingF) = false →
      ∃ r, SyncManager.syncAccount haltF isSyncingF hs N g0 hists = .ok r) := by
  constructor
  · intro h
    simp [SyncManager.syncAccount, h]
  · intro h
    simp only [SyncManager.syncAccount, h, Bool.false_eq_true, if_false]
    split
    · exact ⟨_, rfl⟩
    · exact ⟨_, rfl⟩

/-- Witness for C10: a call with the busy flag set (and one with the halt
flag set) each fail with the message naming both boolean values. -/
theorem c10_sync_already_running_witness :
    SyncManager.syncAccount false true (fun _ => false) 3 0 [] =
      .error ("already syncing " ++ toString false ++ " " ++ toString true) ∧
    SyncManager.syncAccount true false (fun _ => false) 3 0 [] =
      .error ("already syncing " ++ toString true ++ " " ++ toString false) ∧
    ("already syncing " ++ toString false ++ " " ++ toString true) =
      "already syncing false true" := by
  refine ⟨?_, ?_, by decide⟩
  · exact (c10_sync_already_running false true (fun _ => false) 3 0 []).1 rfl
  · exact (c10_sync_already_running true false (fun _ => false) 3 0 []).1 rfl
